import Mathlib

/-!
Verification of the splitbot expense-splitting engine (src/engine/split.ts).

The engine is pure TypeScript over integer cents.  Monetary values are
modelled as Int (the repository states that all money values are integer
cents), JS string-keyed records as insertion-ordered association lists, and
the JS Map used by applySettlement as an association list with the exact
set/get semantics of Map (update-in-place for an existing key, append for a
new one, later duplicate entries of the Map constructor overwrite the value
stored at the first occurrence of the key).  Percentages, which are IEEE
doubles in the source, are modelled as exact rationals; this agrees with the
source whenever the percentage arithmetic is exact in binary64, as it is for
all inputs used in the theorems below.  Thrown JS errors are modelled with
Except; the error taxonomy follows the specification (InvalidInput,
ValidationError) plus the TypeError that the JS runtime itself raises when
Array.prototype.reduce is called on an empty array with no initial value.
-/

namespace Splitbot

/-- Net position of one participant, in integer cents.  Mirrors the Balance
type of src/types: positive means the participant is owed money. -/
structure Balance where
  userId : String
  balance : Int
deriving Repr, DecidableEq

/-- Directed payment instruction.  Mirrors the Settlement type of src/types;
the source field names from and to are Lean keywords and are quoted. -/
structure Settlement where
  «from» : String
  «to» : String
  amount : Int
deriving Repr, DecidableEq

/-- One recorded expense, restricted to the fields the engine reads:
amount (integer cents), paidBy, and the splits record mapping each
participant to their share in cents.  The remaining fields of the TS type
(id, description, currency, ...) are never used by the engine. -/
structure Expense where
  amount : Int
  paidBy : String
  splits : List (String × Int)
deriving Repr, DecidableEq

/-- Error taxonomy of the specification, plus the runtime TypeError. -/
inductive EngineError where
  | invalidInput (msg : String)
  | validationError (msg : String)
  | jsTypeError (msg : String)
deriving Repr, DecidableEq

deriving instance DecidableEq for Except

def zeroParticipantsMsg : String := "Cannot split among zero participants"

def pctMsg : String := "Percentages must sum to 100"

def exactMsg : String := "Exact amounts must sum to total"

def reduceEmptyMsg : String := "Reduce of empty array with no initial value"

/-! ### JS records as association lists

A JS object assignment r[k] = v updates the value of an existing key in
place (keeping its position) and appends a new key at the end.  For
non-index string keys this is exactly JS enumeration order; the theorems
below only depend on the key/value multiset, so the special JS ordering of
integer-like keys is irrelevant to every statement proved here. -/

/-- JS record assignment r[k] = v. -/
def recordSet {α : Type} (r : List (String × α)) (k : String) (v : α) : List (String × α) :=
  match r with
  | [] => [(k, v)]
  | (k', v') :: rest => if k' = k then (k, v) :: rest else (k', v') :: recordSet rest k v

/-- JS record lookup (r[k] || 0): the value at the first occurrence of the
key, or zero when the key is absent. -/
def recordGet {α : Type} [Zero α] (r : List (String × α)) (k : String) : α :=
  match r with
  | [] => 0
  | (k', v') :: rest => if k' = k then v' else recordGet rest k

/-- Keys of a record, in storage order. -/
def recordKeys {α : Type} (r : List (String × α)) : List String :=
  r.map Prod.fst

/-- Sum of all values of a record. -/
def sumVals (r : List (String × Int)) : Int :=
  (r.map Prod.snd).sum

/-! ### The Allocator (splitEqually, splitByPercentage, splitByExactAmounts) -/

/-- Body of the participants.forEach loop of splitEqually: participant at
index i receives baseShare, plus the remainder when i is the last index. -/
def buildEqualSplits (base rem : Int) (n : Nat) :
    List String → Nat → List (String × Int) → List (String × Int)
  | [], _, splits => splits
  | u :: rest, i, splits =>
      buildEqualSplits base rem n rest (i + 1)
        (recordSet splits u (base + if i = n - 1 then rem else 0))

/-- Translation of splitEqually (src/engine/split.ts, lines 10 to 29).
Math.floor(amountCents / n) is floor division Int.fdiv, and the JS %
operator is the truncated remainder Int.tmod; both are exact here because
cent amounts below 2 to the 53rd are exact doubles. -/
def splitEqually (amountCents : Int) (participants : List String) :
    Except EngineError (List (String × Int)) :=
  if participants.length = 0 then
    .error (.invalidInput zeroParticipantsMsg)
  else
    let base := Int.fdiv amountCents (participants.length : Int)
    let rem := Int.tmod amountCents (participants.length : Int)
    .ok (buildEqualSplits base rem participants.length participants 0 [])

/-- JS Math.round: round half toward positive infinity. -/
def jsRound (q : ℚ) : Int := ⌊q + 1 / 2⌋

/-- Body of the userIds.forEach loop of splitByPercentage, threading the
allocated running total; the participant at the last index receives
amountCents minus everything allocated so far. -/
def buildPctSplits (shares : List (String × ℚ)) (amountCents : Int) (n : Nat) :
    List String → Nat → List (String × Int) → Int → List (String × Int)
  | [], _, splits, _ => splits
  | u :: rest, i, splits, allocated =>
      if i = n - 1 then
        buildPctSplits shares amountCents n rest (i + 1)
          (recordSet splits u (amountCents - allocated)) allocated
      else
        let share := jsRound (((amountCents : ℚ) * recordGet shares u) / 100)
        buildPctSplits shares amountCents n rest (i + 1)
          (recordSet splits u share) (allocated + share)

/-- Translation of splitByPercentage (src/engine/split.ts, lines 38 to 64).
Percentages are modelled as exact rationals. -/
def splitByPercentage (amountCents : Int) (shares : List (String × ℚ)) :
    Except EngineError (List (String × Int)) :=
  let totalPercentage := (shares.map Prod.snd).sum
  if |totalPercentage - 100| > 1 / 1000 then
    .error (.validationError pctMsg)
  else
    let userIds := recordKeys shares
    .ok (buildPctSplits shares amountCents userIds.length userIds 0 [] 0)

/-- Translation of splitByExactAmounts (src/engine/split.ts, lines 73
to 86): validate that the shares sum to the total and pass them through. -/
def splitByExactAmounts (amountCents : Int) (shares : List (String × Int)) :
    Except EngineError (List (String × Int)) :=
  let totalShares := (shares.map Prod.snd).sum
  if totalShares ≠ amountCents then
    .error (.validationError exactMsg)
  else
    .ok shares

/-! ### The Balance Aggregator (calculateBalances) -/

/-- Inner loop of calculateBalances: debit every participant of one splits
record by their share on the running balance map. -/
def debitFold (splits : List (String × Int)) (m : List (String × Int)) :
    List (String × Int) :=
  splits.foldl (fun m2 kv => recordSet m2 kv.1 (recordGet m2 kv.1 - kv.2)) m

/-- Body of the for-loop of calculateBalances for one expense: credit the
payer with the full amount, then debit the participants. -/
def expenseStep (m : List (String × Int)) (e : Expense) : List (String × Int) :=
  debitFold e.splits (recordSet m e.paidBy (recordGet m e.paidBy + e.amount))

/-- Translation of calculateBalances (src/engine/split.ts, lines 93
to 110): fold every expense over an initially empty balance map, then
render the record as a Balance list. -/
def calculateBalances (expenses : List Expense) : List Balance :=
  (expenses.foldl expenseStep []).map (fun kv => { userId := kv.1, balance := kv.2 })

/-! ### The Settlement Applier (applySettlement) -/

/-- JS Map.prototype.set: overwrite the value at the first occurrence of
the key, keeping its position, or append a fresh entry. -/
def mapSet (m : List Balance) (k : String) (v : Int) : List Balance :=
  match m with
  | [] => [⟨k, v⟩]
  | b :: rest => if b.userId = k then ⟨k, v⟩ :: rest else b :: mapSet rest k v

/-- JS balanceMap.get(k) || 0. -/
def mapGet (m : List Balance) (k : String) : Int :=
  match m with
  | [] => 0
  | b :: rest => if b.userId = k then b.balance else mapGet rest k

/-- JS new Map(entries): insert every entry in order with Map.set, so a
duplicated key keeps its first position and its last value. -/
def mapFromList (l : List Balance) : List Balance :=
  l.foldl (fun m b => mapSet m b.userId b.balance) []

/-- Translation of applySettlement (src/engine/split.ts, lines 168 to 186):
add the amount to the payer, subtract it from the receiver, creating absent
participants at balance zero, and render the Map back to a list. -/
def applySettlement (balances : List Balance) (settlement : Settlement) : List Balance :=
  let balanceMap := mapFromList balances
  let fromBalance := mapGet balanceMap settlement.«from»
  let m1 := mapSet balanceMap settlement.«from» (fromBalance + settlement.amount)
  let toBalance := mapGet m1 settlement.«to»
  mapSet m1 settlement.«to» (toBalance - settlement.amount)

/-- Sum of the net balances of a balance list. -/
def sumBal (l : List Balance) : Int :=
  (l.map Balance.balance).sum

/-- Participant ids of a balance list, in order. -/
def balKeys (l : List Balance) : List String :=
  l.map Balance.userId

/-! ### The Debt Simplifier (simplifyDebts)

The JS loop mutates, through the object references returned by the two
reduce calls, the entries of the working array.  The reduce calls return
the first entry attaining the extreme value, so object identity is modelled
by tracking the index of that entry and mutation by List.set at it. -/

/-- Index-tracking translation of the JS reduce that picks the first
largest creditor: starting from the current best (index, value), replace it
whenever a strictly larger balance is found; i is the index of the head of
the remaining list. -/
def maxCreditorAux : List Balance → Nat → Int → Nat → Nat × Int
  | [], bestIdx, bestVal, _ => (bestIdx, bestVal)
  | x :: rest, bestIdx, bestVal, i =>
      if bestVal < x.balance then maxCreditorAux rest i x.balance (i + 1)
      else maxCreditorAux rest bestIdx bestVal (i + 1)

/-- Index-tracking translation of the JS reduce that picks the first
largest debtor (strictly smallest balance). -/
def minDebtorAux : List Balance → Nat → Int → Nat → Nat × Int
  | [], bestIdx, bestVal, _ => (bestIdx, bestVal)
  | x :: rest, bestIdx, bestVal, i =>
      if x.balance < bestVal then minDebtorAux rest i x.balance (i + 1)
      else minDebtorAux rest bestIdx bestVal (i + 1)

/-- JS workingBalances.reduce picking the first maximal balance, on the
nonempty array b :: rest. -/
def maxCreditorOf (b : Balance) (rest : List Balance) : Nat × Int :=
  maxCreditorAux rest 0 b.balance 1

/-- JS workingBalances.reduce picking the first minimal balance, on the
nonempty array b :: rest. -/
def minDebtorOf (b : Balance) (rest : List Balance) : Nat × Int :=
  minDebtorAux rest 0 b.balance 1

/-- Array indexing with an out-of-range default, used to read the entries
the simplifier mutates. -/
def getBal (l : List Balance) (i : Nat) : Balance :=
  l.getD i ⟨"", 0⟩

/-- One emitting iteration of the simplifier loop: subtract the settled
amount from the creditor entry and add it to the debtor entry. -/
def settleStep (ws : List Balance) (ci di : Nat) (s : Int) : List Balance :=
  let c := getBal ws ci
  let ws1 := ws.set ci ⟨c.userId, c.balance - s⟩
  let d := getBal ws1 di
  ws1.set di ⟨d.userId, d.balance + s⟩

/-- Number of entries whose balance is nonzero; the termination measure of
the simplifier loop. -/
def countNonzero : List Balance → Nat
  | [] => 0
  | b :: rest => (if b.balance ≠ 0 then 1 else 0) + countNonzero rest

theorem getBal_eq_getElem (l : List Balance) (i : Nat) (h : i < l.length) :
    getBal l i = l[i] := by
  induction l generalizing i with
  | nil => simp at h
  | cons b rest ih =>
    cases i with
    | zero => rfl
    | succ j => simpa [getBal, List.getD] using ih j (by simpa using h)

theorem getBal_set_ne (l : List Balance) (i j : Nat) (x : Balance)
    (hne : i ≠ j) (hj : j < l.length) :
    getBal (l.set i x) j = getBal l j := by
  rw [getBal_eq_getElem _ _ (by simpa using hj), getBal_eq_getElem _ _ hj]
  exact List.getElem_set_ne hne _

theorem drop_eq_cons_length {α : Type} (full : List α) (i : Nat) (x : α) (l : List α)
    (h : full.drop i = x :: l) : i < full.length := by
  have hlen := congrArg List.length h
  simp only [List.length_drop, List.length_cons] at hlen
  omega

theorem drop_eq_cons_drop {α : Type} (full : List α) :
    ∀ (i : Nat) (x : α) (l : List α), full.drop i = x :: l → full.drop (i + 1) = l := by
  induction full with
  | nil => intro i x l h; simp at h
  | cons y t ih =>
    intro i x l h
    cases i with
    | zero =>
      simp only [List.drop_zero] at h
      cases h
      simp
    | succ j =>
      simp only [List.drop_succ_cons] at h ⊢
      exact ih j x l h

theorem drop_eq_cons_getBal (full : List Balance) :
    ∀ (i : Nat) (x : Balance) (l : List Balance), full.drop i = x :: l → getBal full i = x := by
  induction full with
  | nil => intro i x l h; simp at h
  | cons y t ih =>
    intro i x l h
    cases i with
    | zero =>
      simp only [List.drop_zero] at h
      cases h
      rfl
    | succ j =>
      simp only [List.drop_succ_cons] at h
      simpa [getBal, List.getD] using ih j x l h

theorem maxCreditorAux_spec (full : List Balance) (l : List Balance) :
    ∀ (bi : Nat) (bv : Int) (i : Nat),
      full.drop i = l → bi < full.length → (getBal full bi).balance = bv →
      (maxCreditorAux l bi bv i).1 < full.length ∧
      (getBal full (maxCreditorAux l bi bv i).1).balance = (maxCreditorAux l bi bv i).2 ∧
      bv ≤ (maxCreditorAux l bi bv i).2 ∧
      ∀ x ∈ l, x.balance ≤ (maxCreditorAux l bi bv i).2 := by
  induction l with
  | nil =>
    intro bi bv i _ hbi hbv
    exact ⟨hbi, hbv, le_refl _, by simp⟩
  | cons x rest ih =>
    intro bi bv i hdrop hbi hbv
    have hi : i < full.length := drop_eq_cons_length full i x rest hdrop
    have hfx : getBal full i = x := drop_eq_cons_getBal full i x rest hdrop
    have hrest : full.drop (i + 1) = rest := drop_eq_cons_drop full i x rest hdrop
    by_cases hlt : bv < x.balance
    · have h := ih i x.balance (i + 1) hrest hi (by rw [hfx])
      simp only [maxCreditorAux, if_pos hlt]
      refine ⟨h.1, h.2.1, le_of_lt (lt_of_lt_of_le hlt h.2.2.1), ?_⟩
      intro y hy
      rcases List.mem_cons.mp hy with rfl | hy
      · exact h.2.2.1
      · exact h.2.2.2 y hy
    · have h := ih bi bv (i + 1) hrest hbi hbv
      simp only [maxCreditorAux, if_neg hlt]
      refine ⟨h.1, h.2.1, h.2.2.1, ?_⟩
      intro y hy
      rcases List.mem_cons.mp hy with rfl | hy
      · exact le_trans (not_lt.mp hlt) h.2.2.1
      · exact h.2.2.2 y hy

theorem minDebtorAux_spec (full : List Balance) (l : List Balance) :
    ∀ (bi : Nat) (bv : Int) (i : Nat),
      full.drop i = l → bi < full.length → (getBal full bi).balance = bv →
      (minDebtorAux l bi bv i).1 < full.length ∧
      (getBal full (minDebtorAux l bi bv i).1).balance = (minDebtorAux l bi bv i).2 ∧
      (minDebtorAux l bi bv i).2 ≤ bv ∧
      ∀ x ∈ l, (minDebtorAux l bi bv i).2 ≤ x.balance := by
  induction l with
  | nil =>
    intro bi bv i _ hbi hbv
    exact ⟨hbi, hbv, le_refl _, by simp⟩
  | cons x rest ih =>
    intro bi bv i hdrop hbi hbv
    have hi : i < full.length := drop_eq_cons_length full i x rest hdrop
    have hfx : getBal full i = x := drop_eq_cons_getBal full i x rest hdrop
    have hrest : full.drop (i + 1) = rest := drop_eq_cons_drop full i x rest hdrop
    by_cases hlt : x.balance < bv
    · have h := ih i x.balance (i + 1) hrest hi (by rw [hfx])
      simp only [minDebtorAux, if_pos hlt]
      refine ⟨h.1, h.2.1, le_of_lt (lt_of_le_of_lt h.2.2.1 hlt), ?_⟩
      intro y hy
      rcases List.mem_cons.mp hy with rfl | hy
      · exact h.2.2.1
      · exact h.2.2.2 y hy
    · have h := ih bi bv (i + 1) hrest hbi hbv
      simp only [minDebtorAux, if_neg hlt]
      refine ⟨h.1, h.2.1, h.2.2.1, ?_⟩
      intro y hy
      rcases List.mem_cons.mp hy with rfl | hy
      · exact le_trans h.2.2.1 (not_lt.mp hlt)
      · exact h.2.2.2 y hy

theorem maxCreditorOf_spec (b : Balance) (rest : List Balance) :
    (maxCreditorOf b rest).1 < (b :: rest).length ∧
    (getBal (b :: rest) (maxCreditorOf b rest).1).balance = (maxCreditorOf b rest).2 ∧
    ∀ x ∈ b :: rest, x.balance ≤ (maxCreditorOf b rest).2 := by
  have h := maxCreditorAux_spec (b :: rest) rest 0 b.balance 1 (by simp)
    (by simp) rfl
  refine ⟨h.1, h.2.1, ?_⟩
  intro x hx
  rcases List.mem_cons.mp hx with rfl | hx
  · exact h.2.2.1
  · exact h.2.2.2 x hx

theorem minDebtorOf_spec (b : Balance) (rest : List Balance) :
    (minDebtorOf b rest).1 < (b :: rest).length ∧
    (getBal (b :: rest) (minDebtorOf b rest).1).balance = (minDebtorOf b rest).2 ∧
    ∀ x ∈ b :: rest, (minDebtorOf b rest).2 ≤ x.balance := by
  have h := minDebtorAux_spec (b :: rest) rest 0 b.balance 1 (by simp)
    (by simp) rfl
  refine ⟨h.1, h.2.1, ?_⟩
  intro x hx
  rcases List.mem_cons.mp hx with rfl | hx
  · exact h.2.2.1
  · exact h.2.2.2 x hx

theorem getBal_cons_succ (b : Balance) (rest : List Balance) (i : Nat) :
    getBal (b :: rest) (i + 1) = getBal rest i := by
  simp [getBal, List.getD]

theorem one_le_countNonzero (l : List Balance) :
    ∀ i, i < l.length → (getBal l i).balance ≠ 0 → 1 ≤ countNonzero l := by
  induction l with
  | nil => intro i hi; simp at hi
  | cons b rest ih =>
    intro i hi hnz
    cases i with
    | zero =>
      have hb : getBal (b :: rest) 0 = b := rfl
      rw [hb] at hnz
      rw [countNonzero, if_pos hnz]
      omega
    | succ j =>
      rw [getBal_cons_succ] at hnz
      have := ih j (by simpa using hi) hnz
      rw [countNonzero]
      omega

theorem two_le_countNonzero (l : List Balance) :
    ∀ i j, i < l.length → j < l.length → i ≠ j →
      (getBal l i).balance ≠ 0 → (getBal l j).balance ≠ 0 → 2 ≤ countNonzero l := by
  induction l with
  | nil => intro i j hi; simp at hi
  | cons b rest ih =>
    intro i j hi hj hne h1 h2
    cases i with
    | zero =>
      cases j with
      | zero => exact absurd rfl hne
      | succ j' =>
        have hb : getBal (b :: rest) 0 = b := rfl
        rw [hb] at h1
        rw [getBal_cons_succ] at h2
        have := one_le_countNonzero rest j' (by simpa using hj) h2
        rw [countNonzero, if_pos h1]
        omega
    | succ i' =>
      cases j with
      | zero =>
        have hb : getBal (b :: rest) 0 = b := rfl
        rw [hb] at h2
        rw [getBal_cons_succ] at h1
        have := one_le_countNonzero rest i' (by simpa using hi) h1
        rw [countNonzero, if_pos h2]
        omega
      | succ j' =>
        rw [getBal_cons_succ] at h1 h2
        have := ih i' j' (by simpa using hi) (by simpa using hj)
          (by omega) h1 h2
        rw [countNonzero]
        omega

theorem countNonzero_set (l : List Balance) :
    ∀ (i : Nat) (x : Balance), i < l.length →
      countNonzero (l.set i x) + (if (getBal l i).balance ≠ 0 then 1 else 0) =
        countNonzero l + (if x.balance ≠ 0 then 1 else 0) := by
  induction l with
  | nil => intro i x hi; simp at hi
  | cons b rest ih =>
    intro i x hi
    cases i with
    | zero =>
      have hb : getBal (b :: rest) 0 = b := rfl
      rw [List.set_cons_zero, hb, countNonzero, countNonzero]
      ring
    | succ j =>
      rw [List.set_cons_succ, getBal_cons_succ, countNonzero, countNonzero]
      have := ih j x (by simpa using hi)
      omega

theorem countNonzero_settleStep_lt (ws : List Balance) (ci di : Nat) (s : Int)
    (hci : ci < ws.length) (hdi : di < ws.length)
    (hc : 0 < (getBal ws ci).balance) (hd : (getBal ws di).balance < 0)
    (hs : s = min (getBal ws ci).balance (-(getBal ws di).balance)) :
    countNonzero (settleStep ws ci di s) < countNonzero ws := by
  have hne : ci ≠ di := by
    intro h
    rw [h] at hc
    omega
  set cv := (getBal ws ci).balance with hcv
  set dv := (getBal ws di).balance with hdv
  have htwo : 2 ≤ countNonzero ws :=
    two_le_countNonzero ws ci di hci hdi hne (by omega) (by omega)
  set ws1 := ws.set ci ⟨(getBal ws ci).userId, cv - s⟩ with hws1
  have hdi1 : di < ws1.length := by simpa [hws1] using hdi
  have hgd1 : getBal ws1 di = getBal ws di := getBal_set_ne ws ci di _ hne hdi
  have hstep : settleStep ws ci di s = ws1.set di ⟨(getBal ws di).userId, dv + s⟩ := by
    rw [settleStep]
    simp only [← hws1, hgd1]
  have hcount1 := countNonzero_set ws ci ⟨(getBal ws ci).userId, cv - s⟩ hci
  have hcount2 := countNonzero_set ws1 di ⟨(getBal ws di).userId, dv + s⟩ hdi1
  rw [hgd1] at hcount2
  rw [hstep]
  have hzero : cv - s = 0 ∨ dv + s = 0 := by
    rcases min_choice cv (-dv) with h | h
    · left; omega
    · right; omega
  have hcv0 : (if cv ≠ 0 then 1 else 0) = 1 := if_pos (by omega)
  have hdv0 : (if dv ≠ 0 then 1 else 0) = 1 := if_pos (by omega)
  simp only [← hcv, ← hdv, hcv0, hdv0] at hcount1 hcount2
  have he : (if cv - s ≠ 0 then 1 else 0) + (if dv + s ≠ 0 then 1 else 0) ≤ 1 := by
    rcases hzero with h | h
    · rw [if_neg (by omega : ¬cv - s ≠ 0)]
      split <;> omega
    · rw [if_neg (by omega : ¬dv + s ≠ 0)]
      split <;> omega
  have g1 : countNonzero ws1 + 1 = countNonzero ws + (if cv - s ≠ 0 then 1 else 0) := hcount1
  have g2 : countNonzero (ws1.set di ⟨(getBal ws di).userId, dv + s⟩) + 1 =
      countNonzero ws1 + (if dv + s ≠ 0 then 1 else 0) := hcount2
  set e1 := (if cv - s ≠ 0 then 1 else 0) with he1
  set e2 := (if dv + s ≠ 0 then 1 else 0) with he2
  omega

/-- Translation of the while loop of simplifyDebts (src/engine/split.ts,
lines 122 to 157) on a working array that stays nonempty.  Balances are
integer cents, so the two floating point guards of the source are exact
integer comparisons: abs(x) < 0.01 is x = 0 and settleAmount > 0.01 is
0 < settleAmount, and Math.round(settleAmount) = settleAmount.  The loop
terminates because every emitted settlement zeroes at least one nonzero
entry of the working array. -/
def simplifyLoop (ws : List Balance) : List Settlement :=
  match ws with
  | [] => []
  | b :: rest =>
    if (maxCreditorOf b rest).2 = 0 ∧ (minDebtorOf b rest).2 = 0 then []
    else if hs : 0 < min (maxCreditorOf b rest).2 (-(minDebtorOf b rest).2) then
      { «from» := (getBal (b :: rest) (minDebtorOf b rest).1).userId,
        «to» := (getBal (b :: rest) (maxCreditorOf b rest).1).userId,
        amount := min (maxCreditorOf b rest).2 (-(minDebtorOf b rest).2) } ::
        simplifyLoop (settleStep (b :: rest) (maxCreditorOf b rest).1
          (minDebtorOf b rest).1
          (min (maxCreditorOf b rest).2 (-(minDebtorOf b rest).2)))
    else []
termination_by countNonzero ws
decreasing_by
  refine countNonzero_settleStep_lt _ _ _ _ (maxCreditorOf_spec b rest).1
    (minDebtorOf_spec b rest).1 ?_ ?_ ?_
  · rw [(maxCreditorOf_spec b rest).2.1]
    exact lt_of_lt_of_le hs (min_le_left _ _)
  · have := lt_of_lt_of_le hs (min_le_right _ _)
    rw [(minDebtorOf_spec b rest).2.1]
    omega
  · rw [(maxCreditorOf_spec b rest).2.1, (minDebtorOf_spec b rest).2.1]

/-- Translation of simplifyDebts (src/engine/split.ts, lines 117 to 160).
On the empty balance list, the first reduce call of the loop body is a
reduce of an empty array with no initial value, which raises a TypeError in
JS; every other input enters the loop. -/
def simplifyDebts (balances : List Balance) : Except EngineError (List Settlement) :=
  match balances with
  | [] => .error (.jsTypeError reduceEmptyMsg)
  | b :: rest => .ok (simplifyLoop (b :: rest))

theorem simplifyLoop_cons_zero (b : Balance) (rest : List Balance)
    (h : (maxCreditorOf b rest).2 = 0 ∧ (minDebtorOf b rest).2 = 0) :
    simplifyLoop (b :: rest) = [] := by
  rw [simplifyLoop]
  simp [h]

theorem simplifyLoop_cons_emit (b : Balance) (rest : List Balance)
    (h : ¬((maxCreditorOf b rest).2 = 0 ∧ (minDebtorOf b rest).2 = 0))
    (hs : 0 < min (maxCreditorOf b rest).2 (-(minDebtorOf b rest).2)) :
    simplifyLoop (b :: rest) =
      { «from» := (getBal (b :: rest) (minDebtorOf b rest).1).userId,
        «to» := (getBal (b :: rest) (maxCreditorOf b rest).1).userId,
        amount := min (maxCreditorOf b rest).2 (-(minDebtorOf b rest).2) } ::
        simplifyLoop (settleStep (b :: rest) (maxCreditorOf b rest).1
          (minDebtorOf b rest).1
          (min (maxCreditorOf b rest).2 (-(minDebtorOf b rest).2))) := by
  rw [simplifyLoop]
  simp [h, hs]

theorem simplifyLoop_cons_stop (b : Balance) (rest : List Balance)
    (h : ¬((maxCreditorOf b rest).2 = 0 ∧ (minDebtorOf b rest).2 = 0))
    (hs : ¬0 < min (maxCreditorOf b rest).2 (-(minDebtorOf b rest).2)) :
    simplifyLoop (b :: rest) = [] := by
  rw [simplifyLoop]
  simp [h, hs]

/-! ### Association list lemmas for the JS Map semantics -/

theorem getBal_mem (l : List Balance) (i : Nat) (h : i < l.length) :
    getBal l i ∈ l := by
  rw [getBal_eq_getElem l i h]
  exact List.getElem_mem h

theorem userId_mem_balKeys (l : List Balance) (x : Balance) (h : x ∈ l) :
    x.userId ∈ balKeys l :=
  List.mem_map_of_mem Balance.userId h

theorem mapSet_append_of_not_mem (m : List Balance) (k : String) (v : Int)
    (h : k ∉ balKeys m) : mapSet m k v = m ++ [⟨k, v⟩] := by
  induction m with
  | nil => rfl
  | cons b rest ih =>
    have hne : b.userId ≠ k := by
      intro he
      exact h (by simp [balKeys, he])
    rw [mapSet, if_neg hne, ih (by simp [balKeys] at h ⊢; exact h.2)]
    simp

theorem mapFromList_aux (l : List Balance) :
    ∀ acc : List Balance, (balKeys l).Nodup → (∀ b ∈ l, b.userId ∉ balKeys acc) →
      l.foldl (fun m b => mapSet m b.userId b.balance) acc = acc ++ l := by
  induction l with
  | nil => intro acc _ _; simp
  | cons b rest ih =>
    intro acc hnd hdisj
    rw [balKeys, List.map_cons, List.nodup_cons] at hnd
    rw [List.foldl_cons]
    have hset : mapSet acc b.userId b.balance = acc ++ [b] :=
      mapSet_append_of_not_mem acc b.userId b.balance (hdisj b (by simp))
    rw [hset, ih (acc ++ [b]) hnd.2 ?_]
    · simp
    · intro x hx
      have hxb : x.userId ≠ b.userId := by
        intro he
        exact hnd.1 (he ▸ List.mem_map_of_mem Balance.userId hx)
      have hxacc : x.userId ∉ balKeys acc := hdisj x (by simp [hx])
      simp [balKeys] at hxacc ⊢
      exact ⟨hxacc, hxb⟩

theorem mapFromList_eq_self (l : List Balance) (hnd : (balKeys l).Nodup) :
    mapFromList l = l := by
  simpa [mapFromList] using mapFromList_aux l [] hnd (by simp [balKeys])

theorem mapGet_getBal (l : List Balance) :
    ∀ i, (balKeys l).Nodup → i < l.length →
      mapGet l (getBal l i).userId = (getBal l i).balance := by
  induction l with
  | nil => intro i _ hi; simp at hi
  | cons b rest ih =>
    intro i hnd hi
    cases i with
    | zero =>
      show mapGet (b :: rest) b.userId = b.balance
      rw [mapGet, if_pos rfl]
    | succ j =>
      rw [getBal_cons_succ]
      have hj : j < rest.length := by simpa using hi
      have hmem : (getBal rest j).userId ∈ balKeys rest :=
        userId_mem_balKeys rest _ (getBal_mem rest j hj)
      have hne : b.userId ≠ (getBal rest j).userId := by
        intro he
        rw [balKeys, List.map_cons, List.nodup_cons] at hnd
        exact hnd.1 (he ▸ hmem)
      rw [mapGet, if_neg hne]
      exact ih j (by rw [balKeys, List.map_cons, List.nodup_cons] at hnd; exact hnd.2) hj

theorem mapSet_getBal (l : List Balance) :
    ∀ i v, (balKeys l).Nodup → i < l.length →
      mapSet l (getBal l i).userId v = l.set i ⟨(getBal l i).userId, v⟩ := by
  induction l with
  | nil => intro i v _ hi; simp at hi
  | cons b rest ih =>
    intro i v hnd hi
    cases i with
    | zero =>
      show mapSet (b :: rest) b.userId v = _
      rw [mapSet, if_pos rfl]
      rfl
    | succ j =>
      rw [getBal_cons_succ]
      have hj : j < rest.length := by simpa using hi
      have hmem : (getBal rest j).userId ∈ balKeys rest :=
        userId_mem_balKeys rest _ (getBal_mem rest j hj)
      have hne : b.userId ≠ (getBal rest j).userId := by
        intro he
        rw [balKeys, List.map_cons, List.nodup_cons] at hnd
        exact hnd.1 (he ▸ hmem)
      rw [mapSet, if_neg hne, List.set_cons_succ]
      rw [ih j v (by rw [balKeys, List.map_cons, List.nodup_cons] at hnd; exact hnd.2) hj]

theorem mapGet_mapSet_self (m : List Balance) (k : String) (v : Int) :
    mapGet (mapSet m k v) k = v := by
  induction m with
  | nil => simp [mapSet, mapGet]
  | cons b rest ih =>
    by_cases h : b.userId = k
    · rw [mapSet, if_pos h, mapGet, if_pos rfl]
    · rw [mapSet, if_neg h, mapGet, if_neg h]
      exact ih

theorem mapGet_mapSet_ne (m : List Balance) (k j : String) (v : Int) (hne : k ≠ j) :
    mapGet (mapSet m k v) j = mapGet m j := by
  induction m with
  | nil => simp [mapSet, mapGet, if_neg hne]
  | cons b rest ih =>
    by_cases h : b.userId = k
    · rw [mapSet, if_pos h, mapGet, if_neg hne, mapGet, if_neg (h ▸ hne)]
    · rw [mapSet, if_neg h, mapGet, mapGet]
      by_cases h2 : b.userId = j
      · rw [if_pos h2, if_pos h2]
      · rw [if_neg h2, if_neg h2]
        exact ih

theorem mapSet_mapGet_self (m : List Balance) (k : String) (h : k ∈ balKeys m) :
    mapSet m k (mapGet m k) = m := by
  induction m with
  | nil => simp [balKeys] at h
  | cons b rest ih =>
    by_cases hb : b.userId = k
    · rw [mapGet, if_pos hb, mapSet, if_pos hb, ← hb]
    · rw [mapGet, if_neg hb, mapSet, if_neg hb]
      rw [ih (by simp [balKeys] at h ⊢; tauto)]

theorem sumBal_cons (b : Balance) (l : List Balance) :
    sumBal (b :: l) = b.balance + sumBal l := by
  simp [sumBal]

theorem sumBal_mapSet (m : List Balance) (k : String) (v : Int) :
    sumBal (mapSet m k v) = sumBal m - mapGet m k + v := by
  induction m with
  | nil => simp [mapSet, mapGet, sumBal]
  | cons b rest ih =>
    by_cases h : b.userId = k
    · rw [mapSet, if_pos h, mapGet, if_pos h, sumBal_cons, sumBal_cons]
      ring
    · rw [mapSet, if_neg h, mapGet, if_neg h, sumBal_cons, sumBal_cons, ih]
      ring

theorem sumBal_set (l : List Balance) :
    ∀ (i : Nat) (x : Balance), i < l.length →
      sumBal (l.set i x) = sumBal l - (getBal l i).balance + x.balance := by
  induction l with
  | nil => intro i x hi; simp at hi
  | cons b rest ih =>
    intro i x hi
    cases i with
    | zero =>
      have hb : getBal (b :: rest) 0 = b := rfl
      rw [List.set_cons_zero, hb, sumBal_cons, sumBal_cons]
      ring
    | succ j =>
      rw [List.set_cons_succ, getBal_cons_succ, sumBal_cons, sumBal_cons,
        ih j x (by simpa using hi)]
      ring

theorem balKeys_set (l : List Balance) :
    ∀ (i : Nat) (x : Balance), i < l.length → x.userId = (getBal l i).userId →
      balKeys (l.set i x) = balKeys l := by
  induction l with
  | nil => intro i x hi; simp at hi
  | cons b rest ih =>
    intro i x hi hid
    cases i with
    | zero =>
      have hb : getBal (b :: rest) 0 = b := rfl
      rw [hb] at hid
      rw [List.set_cons_zero]
      simp [balKeys, hid]
    | succ j =>
      rw [getBal_cons_succ] at hid
      rw [List.set_cons_succ]
      simp only [balKeys, List.map_cons]
      rw [show (rest.set j x).map Balance.userId = balKeys (rest.set j x) from rfl,
        ih j x (by simpa using hi) hid]
      rfl

theorem sumBal_settleStep (ws : List Balance) (ci di : Nat) (s : Int)
    (hci : ci < ws.length) (hdi : di < ws.length) :
    sumBal (settleStep ws ci di s) = sumBal ws := by
  rw [settleStep]
  have hdi1 : di < (ws.set ci ⟨(getBal ws ci).userId, (getBal ws ci).balance - s⟩).length := by
    simpa using hdi
  rw [sumBal_set _ di _ hdi1, sumBal_set ws ci _ hci]
  ring

theorem balKeys_settleStep (ws : List Balance) (ci di : Nat) (s : Int)
    (hci : ci < ws.length) (hdi : di < ws.length) :
    balKeys (settleStep ws ci di s) = balKeys ws := by
  rw [settleStep]
  set ws1 := ws.set ci ⟨(getBal ws ci).userId, (getBal ws ci).balance - s⟩ with hws1
  have hdi1 : di < ws1.length := by simpa [hws1] using hdi
  rw [balKeys_set ws1 di ⟨(getBal ws1 di).userId, (getBal ws1 di).balance + s⟩ hdi1 rfl]
  rw [hws1, balKeys_set ws ci ⟨(getBal ws ci).userId, (getBal ws ci).balance - s⟩ hci rfl]

theorem applySettlement_eq_settleStep (ws : List Balance) (ci di : Nat) (s : Int)
    (hnd : (balKeys ws).Nodup) (hci : ci < ws.length) (hdi : di < ws.length)
    (hne : ci ≠ di) :
    applySettlement ws
      { «from» := (getBal ws di).userId, «to» := (getBal ws ci).userId, amount := s } =
      settleStep ws ci di s := by
  have hfrom : mapFromList ws = ws := mapFromList_eq_self ws hnd
  rw [applySettlement]
  simp only [hfrom]
  rw [mapGet_getBal ws di hnd hdi, mapSet_getBal ws di _ hnd hdi]
  set d1 : Balance := ⟨(getBal ws di).userId, (getBal ws di).balance + s⟩ with hd1
  set m1 := ws.set di d1 with hm1
  have hci1 : ci < m1.length := by simpa [hm1] using hci
  have hm1ci : getBal m1 ci = getBal ws ci := getBal_set_ne ws di ci d1 (Ne.symm hne) hci
  have hm1nd : (balKeys m1).Nodup := by
    rw [hm1, balKeys_set ws di d1 hdi rfl]
    exact hnd
  have hget : mapGet m1 (getBal ws ci).userId = (getBal ws ci).balance := by
    rw [← hm1ci, mapGet_getBal m1 ci hm1nd hci1, hm1ci]
  rw [hget]
  have hset : mapSet m1 (getBal ws ci).userId ((getBal ws ci).balance - s) =
      m1.set ci ⟨(getBal ws ci).userId, (getBal ws ci).balance - s⟩ := by
    conv_lhs => rw [← hm1ci]
    rw [mapSet_getBal m1 ci _ hm1nd hci1, hm1ci]
  rw [hset, settleStep]
  have hd2 : getBal (ws.set ci ⟨(getBal ws ci).userId, (getBal ws ci).balance - s⟩) di =
      getBal ws di := getBal_set_ne ws ci di _ hne hdi
  rw [hd2, hm1, hd1]
  exact List.set_comm _ _ ws (Ne.symm hne)

theorem sumBal_nonpos (l : List Balance) (h : ∀ x ∈ l, x.balance ≤ 0) :
    sumBal l ≤ 0 := by
  induction l with
  | nil => simp [sumBal]
  | cons b rest ih =>
    rw [sumBal_cons]
    have hb := h b (by simp)
    have hr := ih fun x hx => h x (by simp [hx])
    omega

theorem sumBal_nonneg (l : List Balance) (h : ∀ x ∈ l, 0 ≤ x.balance) :
    0 ≤ sumBal l := by
  induction l with
  | nil => simp [sumBal]
  | cons b rest ih =>
    rw [sumBal_cons]
    have hb := h b (by simp)
    have hr := ih fun x hx => h x (by simp [hx])
    omega

theorem all_zero_of_nonpos_sum (l : List Balance) (h : ∀ x ∈ l, x.balance ≤ 0)
    (hsum : sumBal l = 0) : ∀ x ∈ l, x.balance = 0 := by
  induction l with
  | nil => intro x hx; simp at hx
  | cons b rest ih =>
    rw [sumBal_cons] at hsum
    have hb := h b (by simp)
    have hr : sumBal rest ≤ 0 := sumBal_nonpos rest fun x hx => h x (by simp [hx])
    intro x hx
    rcases List.mem_cons.mp hx with rfl | hx
    · omega
    · exact ih (fun y hy => h y (by simp [hy])) (by omega) x hx

theorem all_zero_of_nonneg_sum (l : List Balance) (h : ∀ x ∈ l, 0 ≤ x.balance)
    (hsum : sumBal l = 0) : ∀ x ∈ l, x.balance = 0 := by
  induction l with
  | nil => intro x hx; simp at hx
  | cons b rest ih =>
    rw [sumBal_cons] at hsum
    have hb := h b (by simp)
    have hr : 0 ≤ sumBal rest := sumBal_nonneg rest fun x hx => h x (by simp [hx])
    intro x hx
    rcases List.mem_cons.mp hx with rfl | hx
    · omega
    · exact ih (fun y hy => h y (by simp [hy])) (by omega) x hx

theorem all_zero_of_countNonzero_eq_zero (l : List Balance)
    (h : countNonzero l = 0) : ∀ x ∈ l, x.balance = 0 := by
  induction l with
  | nil => intro x hx; simp at hx
  | cons b rest ih =>
    rw [countNonzero] at h
    intro x hx
    rcases List.mem_cons.mp hx with rfl | hx
    · by_contra hb
      rw [if_pos hb] at h
      omega
    · exact ih (by omega) x hx

theorem countNonzero_le_length (l : List Balance) : countNonzero l ≤ l.length := by
  induction l with
  | nil => simp [countNonzero]
  | cons b rest ih =>
    rw [countNonzero, List.length_cons]
    split <;> omega

/-! ### Correctness of the simplifier loop -/

theorem simplifyLoop_drives_to_zero :
    ∀ (n : Nat) (ws : List Balance), countNonzero ws ≤ n →
      (balKeys ws).Nodup → sumBal ws = 0 →
      ∀ x ∈ List.foldl applySettlement ws (simplifyLoop ws), x.balance = 0 := by
  intro n
  induction n with
  | zero =>
    intro ws hc hnd hsum
    have hall : ∀ x ∈ ws, x.balance = 0 :=
      all_zero_of_countNonzero_eq_zero ws (by omega)
    rcases ws with _ | ⟨b, rest⟩
    · intro x hx
      simp [simplifyLoop] at hx
    · have hz : (maxCreditorOf b rest).2 = 0 ∧ (minDebtorOf b rest).2 = 0 := by
        constructor
        · rw [← (maxCreditorOf_spec b rest).2.1]
          exact hall _ (getBal_mem _ _ (maxCreditorOf_spec b rest).1)
        · rw [← (minDebtorOf_spec b rest).2.1]
          exact hall _ (getBal_mem _ _ (minDebtorOf_spec b rest).1)
      rw [simplifyLoop_cons_zero b rest hz]
      intro x hx
      rw [List.foldl_nil] at hx
      exact hall x hx
  | succ n ih =>
    intro ws hc hnd hsum
    rcases ws with _ | ⟨b, rest⟩
    · intro x hx
      simp [simplifyLoop] at hx
    · by_cases hz : (maxCreditorOf b rest).2 = 0 ∧ (minDebtorOf b rest).2 = 0
      · rw [simplifyLoop_cons_zero b rest hz]
        intro x hx
        rw [List.foldl_nil] at hx
        have hmax := (maxCreditorOf_spec b rest).2.2 x hx
        have hmin := (minDebtorOf_spec b rest).2.2 x hx
        omega
      · by_cases hs : 0 < min (maxCreditorOf b rest).2 (-(minDebtorOf b rest).2)
        · have hci := (maxCreditorOf_spec b rest).1
          have hdi := (minDebtorOf_spec b rest).1
          have hcv := (maxCreditorOf_spec b rest).2.1
          have hdv := (minDebtorOf_spec b rest).2.1
          have hcpos : 0 < (getBal (b :: rest) (maxCreditorOf b rest).1).balance := by
            rw [hcv]
            exact lt_of_lt_of_le hs (min_le_left _ _)
          have hdneg : (getBal (b :: rest) (minDebtorOf b rest).1).balance < 0 := by
            have := lt_of_lt_of_le hs (min_le_right _ _)
            omega
          have hne : (maxCreditorOf b rest).1 ≠ (minDebtorOf b rest).1 := by
            intro he
            rw [he] at hcpos
            omega
          rw [simplifyLoop_cons_emit b rest hz hs, List.foldl_cons]
          have happ := applySettlement_eq_settleStep (b :: rest)
            (maxCreditorOf b rest).1 (minDebtorOf b rest).1
            (min (maxCreditorOf b rest).2 (-(minDebtorOf b rest).2)) hnd hci hdi hne
          rw [happ]
          have hlt := countNonzero_settleStep_lt (b :: rest)
            (maxCreditorOf b rest).1 (minDebtorOf b rest).1
            (min (maxCreditorOf b rest).2 (-(minDebtorOf b rest).2)) hci hdi hcpos hdneg
            (by rw [hcv, hdv])
          exact ih _ (by omega)
            (by rw [balKeys_settleStep _ _ _ _ hci hdi]; exact hnd)
            (by rw [sumBal_settleStep _ _ _ _ hci hdi]; exact hsum)
        · have hmin0 : min (maxCreditorOf b rest).2 (-(minDebtorOf b rest).2) ≤ 0 := by
            omega
          have hall : ∀ x ∈ b :: rest, x.balance = 0 := by
            rcases min_le_iff.mp hmin0 with h | h
            · refine all_zero_of_nonpos_sum _ ?_ hsum
              intro x hx
              have := (maxCreditorOf_spec b rest).2.2 x hx
              omega
            · refine all_zero_of_nonneg_sum _ ?_ hsum
              intro x hx
              have := (minDebtorOf_spec b rest).2.2 x hx
              omega
          rw [simplifyLoop_cons_stop b rest hz hs]
          intro x hx
          rw [List.foldl_nil] at hx
          exact hall x hx

theorem simplifyLoop_length_bound :
    ∀ (n : Nat) (ws : List Balance), countNonzero ws ≤ n →
      simplifyLoop ws = [] ∨ (simplifyLoop ws).length + 1 ≤ countNonzero ws := by
  intro n
  induction n with
  | zero =>
    intro ws hc
    have hall : ∀ x ∈ ws, x.balance = 0 :=
      all_zero_of_countNonzero_eq_zero ws (by omega)
    rcases ws with _ | ⟨b, rest⟩
    · left
      simp [simplifyLoop]
    · left
      refine simplifyLoop_cons_zero b rest ⟨?_, ?_⟩
      · rw [← (maxCreditorOf_spec b rest).2.1]
        exact hall _ (getBal_mem _ _ (maxCreditorOf_spec b rest).1)
      · rw [← (minDebtorOf_spec b rest).2.1]
        exact hall _ (getBal_mem _ _ (minDebtorOf_spec b rest).1)
  | succ n ih =>
    intro ws hc
    rcases ws with _ | ⟨b, rest⟩
    · left
      simp [simplifyLoop]
    · by_cases hz : (maxCreditorOf b rest).2 = 0 ∧ (minDebtorOf b rest).2 = 0
      · left
        exact simplifyLoop_cons_zero b rest hz
      · by_cases hs : 0 < min (maxCreditorOf b rest).2 (-(minDebtorOf b rest).2)
        · right
          have hci := (maxCreditorOf_spec b rest).1
          have hdi := (minDebtorOf_spec b rest).1
          have hcv := (maxCreditorOf_spec b rest).2.1
          have hdv := (minDebtorOf_spec b rest).2.1
          have hcpos : 0 < (getBal (b :: rest) (maxCreditorOf b rest).1).balance := by
            rw [hcv]
            exact lt_of_lt_of_le hs (min_le_left _ _)
          have hdneg : (getBal (b :: rest) (minDebtorOf b rest).1).balance < 0 := by
            have := lt_of_lt_of_le hs (min_le_right _ _)
            omega
          have hne : (maxCreditorOf b rest).1 ≠ (minDebtorOf b rest).1 := by
            intro he
            rw [he] at hcpos
            omega
          have htwo : 2 ≤ countNonzero (b :: rest) :=
            two_le_countNonzero (b :: rest) _ _ hci hdi hne (by omega) (by omega)
          have hlt := countNonzero_settleStep_lt (b :: rest)
            (maxCreditorOf b rest).1 (minDebtorOf b rest).1
            (min (maxCreditorOf b rest).2 (-(minDebtorOf b rest).2)) hci hdi hcpos hdneg
            (by rw [hcv, hdv])
          rw [simplifyLoop_cons_emit b rest hz hs, List.length_cons]
          rcases ih (settleStep (b :: rest) (maxCreditorOf b rest).1
              (minDebtorOf b rest).1
              (min (maxCreditorOf b rest).2 (-(minDebtorOf b rest).2)))
              (by omega) with h | h
          · rw [h]
            simpa using htwo
          · omega
        · left
          exact simplifyLoop_cons_stop b rest hz hs

/-! ### Record lemmas for the allocator and the aggregator -/

theorem recordGet_recordSet_self {α : Type} [Zero α] (r : List (String × α))
    (k : String) (v : α) : recordGet (recordSet r k v) k = v := by
  induction r with
  | nil => simp [recordSet, recordGet]
  | cons kv rest ih =>
    obtain ⟨k', v'⟩ := kv
    by_cases h : k' = k
    · rw [recordSet, if_pos h, recordGet, if_pos rfl]
    · rw [recordSet, if_neg h, recordGet, if_neg h]
      exact ih

theorem recordGet_recordSet_ne {α : Type} [Zero α] (r : List (String × α))
    (k j : String) (v : α) (hne : k ≠ j) :
    recordGet (recordSet r k v) j = recordGet r j := by
  induction r with
  | nil => simp [recordSet, recordGet, if_neg hne]
  | cons kv rest ih =>
    obtain ⟨k', v'⟩ := kv
    by_cases h : k' = k
    · rw [recordSet, if_pos h, recordGet, if_neg hne, recordGet, if_neg (h ▸ hne)]
    · rw [recordSet, if_neg h, recordGet, recordGet]
      by_cases h2 : k' = j
      · rw [if_pos h2, if_pos h2]
      · rw [if_neg h2, if_neg h2]
        exact ih

theorem recordSet_append_of_not_mem {α : Type} (r : List (String × α))
    (k : String) (v : α) (h : k ∉ recordKeys r) : recordSet r k v = r ++ [(k, v)] := by
  induction r with
  | nil => rfl
  | cons kv rest ih =>
    obtain ⟨k', v'⟩ := kv
    have hne : k' ≠ k := by
      intro he
      exact h (by simp [recordKeys, he])
    rw [recordSet, if_neg hne, ih (by simp [recordKeys] at h ⊢; exact h.2)]
    simp

theorem mem_recordKeys_recordSet {α : Type} (r : List (String × α))
    (k : String) (v : α) (j : String) :
    j ∈ recordKeys (recordSet r k v) ↔ j ∈ recordKeys r ∨ j = k := by
  induction r with
  | nil => simp [recordSet, recordKeys, eq_comm]
  | cons kv rest ih =>
    obtain ⟨k', v'⟩ := kv
    by_cases h : k' = k
    · rw [recordSet, if_pos h]
      subst h
      simp [recordKeys, eq_comm]
      tauto
    · rw [recordSet, if_neg h]
      simp only [recordKeys, List.map_cons, List.mem_cons] at *
      rw [ih]
      tauto

theorem nodup_recordKeys_recordSet {α : Type} (r : List (String × α))
    (k : String) (v : α) (h : (recordKeys r).Nodup) :
    (recordKeys (recordSet r k v)).Nodup := by
  induction r with
  | nil => simp [recordSet, recordKeys]
  | cons kv rest ih =>
    obtain ⟨k', v'⟩ := kv
    rw [recordKeys, List.map_cons, List.nodup_cons] at h
    by_cases hk : k' = k
    · rw [recordSet, if_pos hk]
      rw [recordKeys, List.map_cons, List.nodup_cons]
      exact ⟨hk ▸ h.1, h.2⟩
    · rw [recordSet, if_neg hk]
      rw [recordKeys, List.map_cons, List.nodup_cons]
      refine ⟨?_, ih h.2⟩
      intro hmem
      rcases (mem_recordKeys_recordSet rest k v k').mp hmem with hm | hm
      · exact h.1 hm
      · exact hk hm

theorem sumVals_recordSet_add (m : List (String × Int)) (k : String) (d : Int) :
    sumVals (recordSet m k (recordGet m k + d)) = sumVals m + d := by
  induction m with
  | nil => simp [recordSet, recordGet, sumVals]
  | cons kv rest ih =>
    obtain ⟨k', v'⟩ := kv
    by_cases h : k' = k
    · rw [recordGet, if_pos h, recordSet, if_pos h]
      simp [sumVals]
      ring
    · rw [recordGet, if_neg h, recordSet, if_neg h]
      simp only [sumVals, List.map_cons, List.sum_cons] at *
      rw [show recordGet rest k + d = recordGet rest k + d from rfl] at ih
      omega

theorem debitFold_sum (splits : List (String × Int)) :
    ∀ m, sumVals (debitFold splits m) = sumVals m - sumVals splits := by
  induction splits with
  | nil => intro m; simp [debitFold, sumVals]
  | cons kv rest ih =>
    intro m
    rw [debitFold, List.foldl_cons]
    have step : sumVals (recordSet m kv.1 (recordGet m kv.1 - kv.2)) =
        sumVals m - kv.2 := by
      have := sumVals_recordSet_add m kv.1 (-kv.2)
      rw [sub_eq_add_neg]
      omega
    rw [show rest.foldl (fun m2 kv => recordSet m2 kv.1 (recordGet m2 kv.1 - kv.2))
        (recordSet m kv.1 (recordGet m kv.1 - kv.2)) =
        debitFold rest (recordSet m kv.1 (recordGet m kv.1 - kv.2)) from rfl]
    rw [ih, step]
    simp [sumVals]
    ring

theorem debitFold_keys_mem (splits : List (String × Int)) :
    ∀ m j, j ∈ recordKeys (debitFold splits m) ↔
      j ∈ recordKeys m ∨ j ∈ recordKeys splits := by
  induction splits with
  | nil => intro m j; simp [debitFold, recordKeys]
  | cons kv rest ih =>
    intro m j
    rw [debitFold, List.foldl_cons]
    rw [show rest.foldl (fun m2 kv => recordSet m2 kv.1 (recordGet m2 kv.1 - kv.2))
        (recordSet m kv.1 (recordGet m kv.1 - kv.2)) =
        debitFold rest (recordSet m kv.1 (recordGet m kv.1 - kv.2)) from rfl]
    rw [ih, mem_recordKeys_recordSet]
    simp only [recordKeys, List.map_cons, List.mem_cons]
    tauto

theorem debitFold_keys_nodup (splits : List (String × Int)) :
    ∀ m, (recordKeys m).Nodup → (recordKeys (debitFold splits m)).Nodup := by
  induction splits with
  | nil => intro m h; simpa [debitFold] using h
  | cons kv rest ih =>
    intro m h
    rw [debitFold, List.foldl_cons]
    rw [show rest.foldl (fun m2 kv => recordSet m2 kv.1 (recordGet m2 kv.1 - kv.2))
        (recordSet m kv.1 (recordGet m kv.1 - kv.2)) =
        debitFold rest (recordSet m kv.1 (recordGet m kv.1 - kv.2)) from rfl]
    exact ih _ (nodup_recordKeys_recordSet m kv.1 _ h)

theorem expenseStep_sum (m : List (String × Int)) (e : Expense)
    (h : sumVals e.splits = e.amount) : sumVals (expenseStep m e) = sumVals m := by
  rw [expenseStep, debitFold_sum, sumVals_recordSet_add, h]
  ring

theorem balanceFold_sum (expenses : List Expense) :
    ∀ m, (∀ e ∈ expenses, sumVals e.splits = e.amount) →
      sumVals (expenses.foldl expenseStep m) = sumVals m := by
  induction expenses with
  | nil => intro m _; rfl
  | cons e rest ih =>
    intro m h
    rw [List.foldl_cons, ih _ fun x hx => h x (by simp [hx]),
      expenseStep_sum m e (h e (by simp))]

theorem balanceFold_keys_mem (expenses : List Expense) :
    ∀ m j, j ∈ recordKeys (expenses.foldl expenseStep m) ↔
      j ∈ recordKeys m ∨ ∃ e ∈ expenses, j = e.paidBy ∨ j ∈ recordKeys e.splits := by
  induction expenses with
  | nil => intro m j; simp
  | cons e rest ih =>
    intro m j
    rw [List.foldl_cons, ih, expenseStep, debitFold_keys_mem, mem_recordKeys_recordSet]
    simp only [List.mem_cons]
    constructor
    · rintro (((h | h) | h) | ⟨x, hx, h⟩)
      · exact Or.inl h
      · exact Or.inr ⟨e, Or.inl rfl, Or.inl h⟩
      · exact Or.inr ⟨e, Or.inl rfl, Or.inr h⟩
      · exact Or.inr ⟨x, Or.inr hx, h⟩
    · rintro (h | ⟨x, (rfl | hx), h⟩)
      · exact Or.inl (Or.inl (Or.inl h))
      · rcases h with h | h
        · exact Or.inl (Or.inl (Or.inr h))
        · exact Or.inl (Or.inr h)
      · exact Or.inr ⟨x, hx, h⟩

theorem balanceFold_keys_nodup (expenses : List Expense) :
    ∀ m, (recordKeys m).Nodup → (recordKeys (expenses.foldl expenseStep m)).Nodup := by
  induction expenses with
  | nil => intro m h; exact h
  | cons e rest ih =>
    intro m h
    rw [List.foldl_cons]
    exact ih _ (debitFold_keys_nodup e.splits _ (nodup_recordKeys_recordSet m e.paidBy _ h))

theorem sumBal_map_conv (l : List (String × Int)) :
    sumBal (l.map (fun kv => { userId := kv.1, balance := kv.2 : Balance })) = sumVals l := by
  simp only [sumBal, sumVals, List.map_map]
  rfl

theorem balKeys_map_conv (l : List (String × Int)) :
    balKeys (l.map (fun kv => { userId := kv.1, balance := kv.2 : Balance })) = recordKeys l := by
  simp [balKeys, recordKeys, Function.comp]

theorem sumVals_append_single (r : List (String × Int)) (k : String) (v : Int) :
    sumVals (r ++ [(k, v)]) = sumVals r + v := by
  simp [sumVals]

/-! ### Lemmas on the allocator loops -/

theorem buildEq_get_old (base rem : Int) (n : Nat) (ps : List String) :
    ∀ (i : Nat) (splits : List (String × Int)) (k : String), k ∉ ps →
      recordGet (buildEqualSplits base rem n ps i splits) k = recordGet splits k := by
  induction ps with
  | nil => intro i splits k _; rfl
  | cons u rest ih =>
    intro i splits k hk
    rw [buildEqualSplits]
    rw [ih (i + 1) _ k (by intro h; exact hk (by simp [h]))]
    exact recordGet_recordSet_ne splits u k _ (by intro h; exact hk (by simp [h]))

theorem buildEq_keys (base rem : Int) (n : Nat) (ps : List String) :
    ∀ (i : Nat) (splits : List (String × Int)),
      (∀ u ∈ ps, u ∉ recordKeys splits) → ps.Nodup →
      recordKeys (buildEqualSplits base rem n ps i splits) = recordKeys splits ++ ps := by
  induction ps with
  | nil => intro i splits _ _; simp [buildEqualSplits]
  | cons u rest ih =>
    intro i splits hfresh hnd
    rw [List.nodup_cons] at hnd
    rw [buildEqualSplits]
    rw [recordSet_append_of_not_mem splits u _ (hfresh u (by simp))]
    rw [ih (i + 1) _ ?_ hnd.2]
    · simp [recordKeys]
    · intro x hx
      simp only [recordKeys, List.map_append, List.mem_append] at *
      rintro (h | h)
      · exact hfresh x (by simp [hx]) h
      · simp at h
        exact hnd.1 (h ▸ hx)

theorem buildEq_get_new (base rem : Int) (n : Nat) (ps : List String) :
    ∀ (i : Nat) (splits : List (String × Int)) (j : Nat), j < ps.length →
      (∀ u ∈ ps, u ∉ recordKeys splits) → ps.Nodup →
      recordGet (buildEqualSplits base rem n ps i splits) (ps.getD j "") =
        base + if i + j = n - 1 then rem else 0 := by
  induction ps with
  | nil => intro i splits j hj; simp at hj
  | cons u rest ih =>
    intro i splits j hj hfresh hnd
    rw [List.nodup_cons] at hnd
    cases j with
    | zero =>
      rw [buildEqualSplits]
      have hg : (u :: rest).getD 0 "" = u := rfl
      rw [hg, buildEq_get_old base rem n rest (i + 1) _ u hnd.1,
        recordGet_recordSet_self]
      simp
    | succ j' =>
      have hg : (u :: rest).getD (j' + 1) "" = rest.getD j' "" := rfl
      rw [buildEqualSplits, hg]
      rw [ih (i + 1) _ j' (by simpa using hj) ?_ hnd.2]
      · have harith : i + 1 + j' = i + (j' + 1) := by omega
        rw [harith]
      · intro x hx
        rw [recordSet_append_of_not_mem splits u _ (hfresh u (by simp))]
        simp only [recordKeys, List.map_append, List.mem_append]
        rintro (h | h)
        · exact hfresh x (by simp [hx]) h
        · simp at h
          exact hnd.1 (h ▸ hx)

theorem buildEq_sum (base rem : Int) (n : Nat) (ps : List String) :
    ∀ (i : Nat) (splits : List (String × Int)),
      i + ps.length = n → ps ≠ [] →
      (∀ u ∈ ps, u ∉ recordKeys splits) → ps.Nodup →
      sumVals (buildEqualSplits base rem n ps i splits) =
        sumVals splits + base * (ps.length : Int) + rem := by
  induction ps with
  | nil => intro i splits _ hne; exact absurd rfl hne
  | cons u rest ih =>
    intro i splits hlen _ hfresh hnd
    rw [List.nodup_cons] at hnd
    rcases List.eq_nil_or_concat rest with hrest | _
    · subst hrest
      have hi : i = n - 1 := by
        simp at hlen
        omega
      rw [buildEqualSplits, if_pos hi, buildEqualSplits,
        recordSet_append_of_not_mem splits u _ (hfresh u (by simp)),
        sumVals_append_single]
      simp
      ring
    · have hrest : rest ≠ [] := by
        rename_i hr
        obtain ⟨l2, b2, rfl⟩ := hr
        simp
      have hlen' : 0 < rest.length := List.length_pos.mpr hrest
      have hi : ¬i = n - 1 := by
        simp only [List.length_cons] at hlen
        omega
      rw [buildEqualSplits, if_neg hi]
      rw [ih (i + 1) _ (by simp at hlen ⊢; omega) hrest ?_ hnd.2]
      · rw [recordSet_append_of_not_mem splits u _ (hfresh u (by simp)),
          sumVals_append_single]
        simp only [List.length_cons]
        push_cast
        ring
      · intro x hx
        rw [recordSet_append_of_not_mem splits u _ (hfresh u (by simp))]
        simp only [recordKeys, List.map_append, List.mem_append]
        rintro (h | h)
        · exact hfresh x (by simp [hx]) h
        · simp at h
          exact hnd.1 (h ▸ hx)

theorem buildPct_spec (shares : List (String × ℚ)) (a : Int) (n : Nat)
    (us : List String) :
    ∀ (i : Nat) (splits : List (String × Int)) (allocated : Int),
      i + us.length = n → us ≠ [] →
      (∀ u ∈ us, u ∉ recordKeys splits) → us.Nodup → sumVals splits = allocated →
      recordKeys (buildPctSplits shares a n us i splits allocated) =
        recordKeys splits ++ us ∧
      sumVals (buildPctSplits shares a n us i splits allocated) = a := by
  induction us with
  | nil => intro i splits allocated _ hne; exact absurd rfl hne
  | cons u rest ih =>
    intro i splits allocated hlen _ hfresh hnd hsum
    rw [List.nodup_cons] at hnd
    rcases List.eq_nil_or_concat rest with hrest | _
    · subst hrest
      have hi : i = n - 1 := by
        simp at hlen
        omega
      rw [buildPctSplits, if_pos hi, buildPctSplits,
        recordSet_append_of_not_mem splits u _ (hfresh u (by simp))]
      constructor
      · simp [recordKeys]
      · rw [sumVals_append_single, hsum]
        ring
    · have hrest : rest ≠ [] := by
        rename_i hr
        obtain ⟨l2, b2, rfl⟩ := hr
        simp
      have hlen' : 0 < rest.length := List.length_pos.mpr hrest
      have hi : ¬i = n - 1 := by
        simp only [List.length_cons] at hlen
        omega
      rw [buildPctSplits, if_neg hi]
      have hfresh2 : ∀ x ∈ rest,
          x ∉ recordKeys (recordSet splits u
            (jsRound (((a : ℚ) * recordGet shares u) / 100))) := by
        intro x hx
        rw [recordSet_append_of_not_mem splits u _ (hfresh u (by simp))]
        simp only [recordKeys, List.map_append, List.mem_append]
        rintro (h | h)
        · exact hfresh x (by simp [hx]) h
        · simp at h
          exact hnd.1 (h ▸ hx)
      have hsum2 : sumVals (recordSet splits u
          (jsRound (((a : ℚ) * recordGet shares u) / 100))) =
          allocated + jsRound (((a : ℚ) * recordGet shares u) / 100) := by
        rw [recordSet_append_of_not_mem splits u _ (hfresh u (by simp)),
          sumVals_append_single, hsum]
      have h := ih (i + 1) _ _ (by simp at hlen ⊢; omega) hrest hfresh2 hnd.2 hsum2
      refine ⟨?_, h.2⟩
      rw [h.1, recordSet_append_of_not_mem splits u _ (hfresh u (by simp))]
      simp [recordKeys]

/-! ### The claims -/

/-- C1: for every list of expenses in which each expense's shares sum to its
amount, the balances returned by calculateBalances sum to zero, and the
output has exactly one entry (a nodup key list) per participant that
appears as a payer or in some expense's splits record. -/
theorem calculateBalances_conservation (expenses : List Expense)
    (h : ∀ e ∈ expenses, sumVals e.splits = e.amount) :
    sumBal (calculateBalances expenses) = 0 ∧
    (balKeys (calculateBalances expenses)).Nodup ∧
    ∀ p, p ∈ balKeys (calculateBalances expenses) ↔
      ∃ e ∈ expenses, p = e.paidBy ∨ p ∈ recordKeys e.splits := by
  rw [calculateBalances]
  refine ⟨?_, ?_, ?_⟩
  · rw [sumBal_map_conv, balanceFold_sum expenses [] h]
    rfl
  · rw [balKeys_map_conv]
    exact balanceFold_keys_nodup expenses [] (by simp [recordKeys])
  · intro p
    rw [balKeys_map_conv, balanceFold_keys_mem]
    simp [recordKeys]

/-- Witness for C1 at the specification's running example: one expense of
3000 cents paid by alice and split equally three ways. -/
theorem calculateBalances_conservation_witness :
    (∀ e ∈ [(⟨3000, "alice", [("alice", 1000), ("bob", 1000), ("charlie", 1000)]⟩ : Expense)],
      sumVals e.splits = e.amount) ∧
    (sumBal (calculateBalances
        [⟨3000, "alice", [("alice", 1000), ("bob", 1000), ("charlie", 1000)]⟩]) = 0 ∧
      (balKeys (calculateBalances
        [⟨3000, "alice", [("alice", 1000), ("bob", 1000), ("charlie", 1000)]⟩])).Nodup ∧
      ∀ p, p ∈ balKeys (calculateBalances
          [⟨3000, "alice", [("alice", 1000), ("bob", 1000), ("charlie", 1000)]⟩]) ↔
        ∃ e ∈ [(⟨3000, "alice",
            [("alice", 1000), ("bob", 1000), ("charlie", 1000)]⟩ : Expense)],
          p = e.paidBy ∨ p ∈ recordKeys e.splits) :=
  ⟨by decide, calculateBalances_conservation _ (by decide)⟩

/-- Counterexample for C2: the list with a duplicated userId sums to zero,
yet applying the one settlement that simplifyDebts emits for it back onto
the original list leaves a nonzero balance, because the Map that
applySettlement builds collapses the duplicate entries. -/
theorem simplifyDebts_duplicate_ids_counterexample :
    sumBal [⟨"a", 1000⟩, ⟨"a", -1000⟩] = 0 ∧
    simplifyDebts [⟨"a", 1000⟩, ⟨"a", -1000⟩] = .ok [⟨"a", "a", 1000⟩] ∧
    List.foldl applySettlement [⟨"a", 1000⟩, ⟨"a", -1000⟩] [⟨"a", "a", 1000⟩] =
      [⟨"a", -1000⟩] ∧
    ¬∀ x ∈ List.foldl applySettlement [⟨"a", 1000⟩, ⟨"a", -1000⟩]
        [⟨"a", "a", 1000⟩], x.balance = 0 := by
  refine ⟨by decide, ?_, by decide, by decide⟩
  simp [simplifyDebts, simplifyLoop, maxCreditorOf, minDebtorOf, maxCreditorAux,
    minDebtorAux, settleStep, getBal]

/-- C2 (amended): for every balance list with pairwise distinct userIds
whose values sum to zero, applying every settlement emitted by
simplifyDebts, in order, via applySettlement yields balances that are all
exactly zero. -/
theorem simplifyDebts_applied_zeroes_balances (balances : List Balance)
    (ss : List Settlement) (hnd : (balKeys balances).Nodup)
    (hsum : sumBal balances = 0) (hok : simplifyDebts balances = .ok ss) :
    ∀ x ∈ List.foldl applySettlement balances ss, x.balance = 0 := by
  rcases balances with _ | ⟨b, rest⟩
  · simp [simplifyDebts] at hok
  · have hss : simplifyLoop (b :: rest) = ss := by
      simpa [simplifyDebts] using hok
    subst hss
    exact simplifyLoop_drives_to_zero (countNonzero (b :: rest)) _ le_rfl hnd hsum

/-- Witness for C2 at the specification's example balances. -/
theorem simplifyDebts_applied_zeroes_balances_witness :
    (balKeys [⟨"alice", -1000⟩, ⟨"bob", 0⟩, ⟨"charlie", 1000⟩]).Nodup ∧
    sumBal [⟨"alice", -1000⟩, ⟨"bob", 0⟩, ⟨"charlie", 1000⟩] = 0 ∧
    simplifyDebts [⟨"alice", -1000⟩, ⟨"bob", 0⟩, ⟨"charlie", 1000⟩] =
      .ok [⟨"alice", "charlie", 1000⟩] ∧
    ∀ x ∈ List.foldl applySettlement
        [⟨"alice", -1000⟩, ⟨"bob", 0⟩, ⟨"charlie", 1000⟩]
        [⟨"alice", "charlie", 1000⟩], x.balance = 0 := by
  have hok : simplifyDebts [⟨"alice", -1000⟩, ⟨"bob", 0⟩, ⟨"charlie", 1000⟩] =
      .ok [⟨"alice", "charlie", 1000⟩] := by
    simp [simplifyDebts, simplifyLoop, maxCreditorOf, minDebtorOf, maxCreditorAux,
      minDebtorAux, settleStep, getBal]
  exact ⟨by decide, by decide, hok,
    simplifyDebts_applied_zeroes_balances _ _ (by decide) (by decide) hok⟩

/-- C3: whenever simplifyDebts returns a settlement list, that list has at
most n minus one entries for n input balances.  Termination on every input
is witnessed by the totality of the Lean translation itself, whose
recursion measure countNonzero strictly decreases with every emitted
settlement. -/
theorem simplifyDebts_settlement_count_bound (balances : List Balance)
    (ss : List Settlement) (hok : simplifyDebts balances = .ok ss) :
    ss.length + 1 ≤ balances.length := by
  rcases balances with _ | ⟨b, rest⟩
  · simp [simplifyDebts] at hok
  · have hss : simplifyLoop (b :: rest) = ss := by
      simpa [simplifyDebts] using hok
    subst hss
    rcases simplifyLoop_length_bound (countNonzero (b :: rest)) (b :: rest) le_rfl
      with h | h
    · rw [h]
      simp
    · have := countNonzero_le_length (b :: rest)
      omega

/-- Witness for C3 on a two-person debt. -/
theorem simplifyDebts_settlement_count_bound_witness :
    simplifyDebts [⟨"a", 1⟩, ⟨"b", -1⟩] = .ok [⟨"b", "a", 1⟩] ∧
    ([({ «from» := "b", «to» := "a", amount := 1 } : Settlement)]).length + 1 ≤
      ([⟨"a", 1⟩, ⟨"b", -1⟩] : List Balance).length := by
  have hok : simplifyDebts [⟨"a", 1⟩, ⟨"b", -1⟩] = .ok [⟨"b", "a", 1⟩] := by
    simp [simplifyDebts, simplifyLoop, maxCreditorOf, minDebtorOf, maxCreditorAux,
      minDebtorAux, settleStep, getBal]
  exact ⟨hok, simplifyDebts_settlement_count_bound _ _ hok⟩

/-- C4: evaluation at the failing input.  On the empty balance list the
first reduce call of the simplifier loop has no initial value, so the JS
runtime raises a TypeError instead of returning the empty settlement list
that the specification promises; calculateBalances on the empty list does
return the empty list. -/
theorem simplifyDebts_empty_throws :
    simplifyDebts [] = .error (.jsTypeError reduceEmptyMsg) ∧
    calculateBalances [] = [] :=
  ⟨rfl, rfl⟩

/-- Counterexample for C5: with a duplicated participant the record
assignment overwrites the earlier share, so the shares no longer sum to the
amount and not every slot receives the floor share. -/
theorem splitEqually_duplicate_counterexample :
    splitEqually 101 ["a", "a"] = .ok [("a", 51)] ∧
    sumVals [("a", 51)] ≠ 101 := by
  constructor
  · decide
  · decide

/-- C5 (amended): for every amount that is at least zero and every nonempty
list of pairwise distinct participants, splitEqually succeeds, its result
has exactly the given participants as keys, the participant at position j
receives the floor of amount over n plus, exactly at the last position, the
whole remainder, and the shares sum to the amount; the empty participant
list fails with InvalidInput. -/
theorem splitEqually_spec (a : Int) (ps : List String)
    (hne : ps ≠ []) (hnd : ps.Nodup) (ha : 0 ≤ a) :
    (∃ r, splitEqually a ps = .ok r ∧
      recordKeys r = ps ∧
      sumVals r = a ∧
      ∀ j, j < ps.length →
        recordGet r (ps.getD j "") =
          a / (ps.length : Int) +
            if j = ps.length - 1 then a % (ps.length : Int) else 0) ∧
    splitEqually a [] = .error (.invalidInput zeroParticipantsMsg) := by
  refine ⟨?_, rfl⟩
  have hlen : ¬ps.length = 0 := by
    simpa [List.length_eq_zero] using hne
  have hfd : Int.fdiv a (ps.length : Int) = a / (ps.length : Int) :=
    Int.fdiv_eq_ediv a (Int.natCast_nonneg _)
  have htm : Int.tmod a (ps.length : Int) = a % (ps.length : Int) :=
    Int.tmod_eq_emod ha (Int.natCast_nonneg _)
  simp only [splitEqually, if_neg hlen]
  refine ⟨_, rfl, ?_, ?_, ?_⟩
  · rw [buildEq_keys _ _ _ ps 0 [] (by simp [recordKeys]) hnd]
    rfl
  · rw [buildEq_sum _ _ _ ps 0 [] (by simp) hne (by simp [recordKeys]) hnd,
      hfd, htm]
    have hsv : sumVals ([] : List (String × Int)) = 0 := rfl
    rw [hsv, zero_add, mul_comm]
    exact Int.ediv_add_emod a _
  · intro j hj
    rw [buildEq_get_new _ _ _ ps 0 [] j hj (by simp [recordKeys]) hnd, hfd, htm]
    simp

/-- Witness for C5 splitting 101 cents between two participants. -/
theorem splitEqually_spec_witness :
    (["a", "b"] : List String) ≠ [] ∧ (["a", "b"] : List String).Nodup ∧
      (0 : Int) ≤ 101 ∧
    ((∃ r, splitEqually 101 ["a", "b"] = .ok r ∧
      recordKeys r = ["a", "b"] ∧
      sumVals r = 101 ∧
      ∀ j, j < (["a", "b"] : List String).length →
        recordGet r ((["a", "b"] : List String).getD j "") =
          101 / ((["a", "b"] : List String).length : Int) +
            if j = (["a", "b"] : List String).length - 1 then
              101 % ((["a", "b"] : List String).length : Int) else 0) ∧
    splitEqually 101 [] = .error (.invalidInput zeroParticipantsMsg)) :=
  ⟨by decide, by decide, by decide,
    splitEqually_spec 101 ["a", "b"] (by decide) (by decide) (by decide)⟩

/-- C6: splitByPercentage fails with ValidationError exactly when the
percentages sum more than 0.001 away from 100, and every accepted input
yields a share map over the same participants, in order, whose values sum
exactly to the amount.  The nodup hypothesis only states that the share
record is a JS object, which cannot hold the same key twice. -/
theorem splitByPercentage_spec (a : Int) (shares : List (String × ℚ))
    (hnd : (recordKeys shares).Nodup) :
    (|(shares.map Prod.snd).sum - 100| > 1 / 1000 →
      splitByPercentage a shares = .error (.validationError pctMsg)) ∧
    (¬|(shares.map Prod.snd).sum - 100| > 1 / 1000 →
      ∃ r, splitByPercentage a shares = .ok r ∧
        recordKeys r = recordKeys shares ∧ sumVals r = a) := by
  constructor
  · intro h
    simp only [splitByPercentage, if_pos h]
  · intro h
    simp only [splitByPercentage, if_neg h]
    have hne : shares ≠ [] := by
      rintro rfl
      simp at h
      norm_num at h
    have hkne : recordKeys shares ≠ [] := by
      simpa [recordKeys] using hne
    have hb := buildPct_spec shares a (recordKeys shares).length
      (recordKeys shares) 0 [] 0 (by simp) hkne (by simp [recordKeys]) hnd rfl
    exact ⟨_, rfl, by simpa using hb.1, hb.2⟩

/-- Witness for C6 at 1000 cents split 50, 30, 20 percent. -/
theorem splitByPercentage_spec_witness :
    (recordKeys [("u1", (50 : ℚ)), ("u2", 30), ("u3", 20)]).Nodup ∧
    ((|([("u1", (50 : ℚ)), ("u2", 30), ("u3", 20)].map Prod.snd).sum - 100| >
        1 / 1000 →
      splitByPercentage 1000 [("u1", 50), ("u2", 30), ("u3", 20)] =
        .error (.validationError pctMsg)) ∧
    (¬|([("u1", (50 : ℚ)), ("u2", 30), ("u3", 20)].map Prod.snd).sum - 100| >
        1 / 1000 →
      ∃ r, splitByPercentage 1000 [("u1", 50), ("u2", 30), ("u3", 20)] = .ok r ∧
        recordKeys r = recordKeys [("u1", (50 : ℚ)), ("u2", 30), ("u3", 20)] ∧
        sumVals r = 1000)) :=
  ⟨by decide, splitByPercentage_spec 1000 _ (by decide)⟩

/-- C7: splitByExactAmounts fails with ValidationError exactly when the
share values do not sum to the amount, by strict integer equality with no
tolerance, and otherwise returns the input record unchanged. -/
theorem splitByExactAmounts_spec (a : Int) (shares : List (String × Int)) :
    (sumVals shares = a → splitByExactAmounts a shares = .ok shares) ∧
    (sumVals shares ≠ a →
      splitByExactAmounts a shares = .error (.validationError exactMsg)) := by
  have hdef : (shares.map Prod.snd).sum = sumVals shares := rfl
  constructor
  · intro h
    simp only [splitByExactAmounts, hdef, h]
    simp
  · intro h
    simp only [splitByExactAmounts, hdef, if_pos h]

/-- Witness for C7: an exact split that passes and one that fails. -/
theorem splitByExactAmounts_spec_witness :
    splitByExactAmounts 1000 [("a", 600), ("b", 400)] =
      .ok [("a", 600), ("b", 400)] ∧
    splitByExactAmounts 1000 [("a", 600), ("b", 300)] =
      .error (.validationError exactMsg) :=
  ⟨(splitByExactAmounts_spec 1000 [("a", 600), ("b", 400)]).1 (by decide),
   (splitByExactAmounts_spec 1000 [("a", 600), ("b", 300)]).2 (by decide)⟩

/-- Counterexample for C8: a zero-amount settlement applied to the empty
balance list creates two fresh zero-balance entries, so the balance list is
not left unchanged. -/
theorem applySettlement_zero_counterexample :
    applySettlement [] { «from» := "a", «to» := "b", amount := 0 } =
      [⟨"a", 0⟩, ⟨"b", 0⟩] ∧
    applySettlement [] { «from» := "a", «to» := "b", amount := 0 } ≠ [] := by
  constructor
  · decide
  · decide

/-- C8 (amended): on a balance list with pairwise distinct userIds that
contains both endpoints of the settlement, a zero-amount settlement is a
valid no-op: applySettlement returns the balance list unchanged. -/
theorem applySettlement_zero_noop (balances : List Balance) (st : Settlement)
    (hnd : (balKeys balances).Nodup)
    (hfrom : st.«from» ∈ balKeys balances) (hto : st.«to» ∈ balKeys balances)
    (hamt : st.amount = 0) :
    applySettlement balances st = balances := by
  simp only [applySettlement, mapFromList_eq_self balances hnd, hamt, add_zero,
    sub_zero]
  rw [mapSet_mapGet_self balances _ hfrom, mapSet_mapGet_self balances _ hto]

/-- Witness for C8 at the specification's example balances. -/
theorem applySettlement_zero_noop_witness :
    (balKeys [⟨"alice", 1000⟩, ⟨"bob", -1000⟩]).Nodup ∧
    ({ «from» := "bob", «to» := "alice", amount := 0 : Settlement }).«from» ∈
      balKeys [⟨"alice", 1000⟩, ⟨"bob", -1000⟩] ∧
    ({ «from» := "bob", «to» := "alice", amount := 0 : Settlement }).«to» ∈
      balKeys [⟨"alice", 1000⟩, ⟨"bob", -1000⟩] ∧
    applySettlement [⟨"alice", 1000⟩, ⟨"bob", -1000⟩]
      { «from» := "bob", «to» := "alice", amount := 0 } =
      [⟨"alice", 1000⟩, ⟨"bob", -1000⟩] :=
  ⟨by decide, by decide, by decide,
    applySettlement_zero_noop _ _ (by decide) (by decide) (by decide) rfl⟩

/-- Counterexample for C9: with a duplicated userId in the balance list the
Map constructor of applySettlement collapses the duplicate entries, so the
total of the balances changes. -/
theorem applySettlement_sum_counterexample :
    sumBal (applySettlement [⟨"a", 1⟩, ⟨"a", 2⟩]
      { «from» := "x", «to» := "y", amount := 5 }) = 2 ∧
    sumBal [⟨"a", 1⟩, ⟨"a", 2⟩] = 3 ∧
    sumBal (applySettlement [⟨"a", 1⟩, ⟨"a", 2⟩]
      { «from» := "x", «to» := "y", amount := 5 }) ≠
      sumBal [⟨"a", 1⟩, ⟨"a", 2⟩] := by
  refine ⟨by decide, by decide, by decide⟩

/-- C9 (amended): for every balance list with pairwise distinct userIds and
every settlement, applySettlement preserves the total of the balances; the
from participant gains exactly the amount and the to participant loses
exactly it (absent participants starting from an implicit zero) whenever
the two endpoints differ, and every other participant is unchanged. -/
theorem applySettlement_conservation (balances : List Balance) (st : Settlement)
    (hnd : (balKeys balances).Nodup) :
    sumBal (applySettlement balances st) = sumBal balances ∧
    (∀ p, p ≠ st.«from» → p ≠ st.«to» →
      mapGet (applySettlement balances st) p = mapGet balances p) ∧
    (st.«from» ≠ st.«to» →
      mapGet (applySettlement balances st) st.«from» =
        mapGet balances st.«from» + st.amount ∧
      mapGet (applySettlement balances st) st.«to» =
        mapGet balances st.«to» - st.amount) := by
  simp only [applySettlement, mapFromList_eq_self balances hnd]
  refine ⟨?_, ?_, ?_⟩
  · rw [sumBal_mapSet, sumBal_mapSet]
    ring
  · intro p hf ht
    rw [mapGet_mapSet_ne _ _ _ _ (Ne.symm ht), mapGet_mapSet_ne _ _ _ _ (Ne.symm hf)]
  · intro hne
    constructor
    · rw [mapGet_mapSet_ne _ _ _ _ (Ne.symm hne), mapGet_mapSet_self]
    · rw [mapGet_mapSet_self, mapGet_mapSet_ne _ _ _ _ hne]

/-- Witness for C9 at the specification's example settlement of 500 cents
from bob to alice. -/
theorem applySettlement_conservation_witness :
    (balKeys [⟨"alice", 1000⟩, ⟨"bob", -1000⟩]).Nodup ∧
    (sumBal (applySettlement [⟨"alice", 1000⟩, ⟨"bob", -1000⟩]
        { «from» := "bob", «to» := "alice", amount := 500 }) =
      sumBal [⟨"alice", 1000⟩, ⟨"bob", -1000⟩] ∧
    (∀ p, p ≠ ({ «from» := "bob", «to» := "alice", amount := 500 : Settlement }).«from» →
        p ≠ ({ «from» := "bob", «to» := "alice", amount := 500 : Settlement }).«to» →
      mapGet (applySettlement [⟨"alice", 1000⟩, ⟨"bob", -1000⟩]
          { «from» := "bob", «to» := "alice", amount := 500 }) p =
        mapGet [⟨"alice", 1000⟩, ⟨"bob", -1000⟩] p) ∧
    (({ «from» := "bob", «to» := "alice", amount := 500 : Settlement }).«from» ≠
        ({ «from» := "bob", «to» := "alice", amount := 500 : Settlement }).«to» →
      mapGet (applySettlement [⟨"alice", 1000⟩, ⟨"bob", -1000⟩]
          { «from» := "bob", «to» := "alice", amount := 500 })
          ({ «from» := "bob", «to» := "alice", amount := 500 : Settlement }).«from» =
        mapGet [⟨"alice", 1000⟩, ⟨"bob", -1000⟩]
          ({ «from» := "bob", «to» := "alice", amount := 500 : Settlement }).«from» +
          ({ «from» := "bob", «to» := "alice", amount := 500 : Settlement }).amount ∧
      mapGet (applySettlement [⟨"alice", 1000⟩, ⟨"bob", -1000⟩]
          { «from» := "bob", «to» := "alice", amount := 500 })
          ({ «from» := "bob", «to» := "alice", amount := 500 : Settlement }).«to» =
        mapGet [⟨"alice", 1000⟩, ⟨"bob", -1000⟩]
          ({ «from» := "bob", «to» := "alice", amount := 500 : Settlement }).«to» -
          ({ «from» := "bob", «to» := "alice", amount := 500 : Settlement }).amount)) :=
  ⟨by decide, applySettlement_conservation _ _ (by decide)⟩

/-- C10: a concrete accepted percentage split that produces a negative
share: 2 cents split at 25 percent across four participants gives the
first three one cent each and the last participant minus one cent. -/
theorem splitByPercentage_negative_share :
    splitByPercentage 2 [("a", 25), ("b", 25), ("c", 25), ("d", 25)] =
      .ok [("a", 1), ("b", 1), ("c", 1), ("d", -1)] ∧
    ∃ kv ∈ [("a", 1), ("b", 1), ("c", 1), ("d", (-1 : Int))], kv.2 < 0 := by
  constructor
  · norm_num [splitByPercentage, buildPctSplits, jsRound, recordGet, recordSet,
      recordKeys]
    decide
  · decide

end Splitbot
